import Mathlib

/-!
# Verification of the Mobile-Utility-Tool sensor/transmission core

Shallow embedding of the three logic components of the repository
(`src/screens/CompassScreen.tsx` — which contains both the compass heading
tracker and, after it, the FlashlightScreen with the SOS and Morse
transmitter — and `src/screens/LevelScreen.tsx`), together with theorems
checking the natural-language specification against it.

Conventions:
* floating-point sensor arithmetic is modelled over `ℚ` (the claims under
  scrutiny involve only field operations and comparisons, never
  transcendental rounding);
* the async pulse loops are modelled as computable trace generators over
  `ℕ` milliseconds, with the out-of-band cancellation flag modelled by a
  cancellation instant `tc` (a flag check performed at elapsed time `t`
  reads "active" iff `t < tc`);
* the synchronous parts of the start/stop handlers are modelled as pure
  state transformers on the component state record.
-/

namespace MobileUtility

/-! ## HeadingTracker (CompassScreen.tsx, magnetometer listener)

The listener keeps `previousAngleRef` and `cumulativeRotationRef`.  On the
first sample it initializes both to the normalized raw angle; afterwards it
adds the shortest-path-normalized delta to the cumulative rotation.
`heading` (the value passed to `setHeading`) always equals the raw angle of
the most recent sample, i.e. `previousAngle` after the update. -/

/-- Shortest-path delta normalization from CompassScreen.tsx lines 144-149:
`if (delta > 180) delta -= 360; else if (delta < -180) delta += 360;`. -/
def normalizeDelta (delta : ℚ) : ℚ :=
  if delta > 180 then delta - 360
  else if delta < -180 then delta + 360
  else delta

/-- State held by the compass listener across samples: `previousAngleRef`,
`cumulativeRotationRef`, and the closure-local `isFirstUpdate` (stored
negated, as `initialized`). -/
structure HeadingState where
  previousAngle : ℚ
  cumulativeRotation : ℚ
  initialized : Bool
deriving DecidableEq, Repr

/-- Refs start at 0, `isFirstUpdate = true` (CompassScreen.tsx lines 47-48, 67). -/
def initialHeadingState : HeadingState :=
  { previousAngle := 0, cumulativeRotation := 0, initialized := false }

/-- One magnetometer sample, given the already-normalized raw angle
(CompassScreen.tsx lines 118-153).  First sample (`isFirstUpdate`, i.e.
`initialized = false`): set `previousAngle = cumulativeRotation = angle`.
Later samples: add the shortest-path delta to the cumulative rotation and
remember the angle. -/
def onHeadingSample (s : HeadingState) (rawAngle : ℚ) : HeadingState :=
  if s.initialized then
    let delta := normalizeDelta (rawAngle - s.previousAngle)
    { previousAngle := rawAngle
      cumulativeRotation := s.cumulativeRotation + delta
      initialized := true }
  else
    { previousAngle := rawAngle, cumulativeRotation := rawAngle, initialized := true }

/-- Fold a stream of raw angles through the listener. -/
def runHeading (s : HeadingState) : List ℚ → HeadingState
  | [] => s
  | a :: rest => runHeading (onHeadingSample s a) rest

/-! ## TiltTracker (LevelScreen.tsx)

`isLevel = Math.abs(xAngle) < 2 && Math.abs(yAngle) < 2` (line 134).  The
angles themselves come from `atan2`; the level decision is a pure function
of the two angle values, which is what we embed. -/

/-- Level decision from LevelScreen.tsx line 134. -/
def isLevel (xAngle yAngle : ℚ) : Bool :=
  decide (|xAngle| < 2) && decide (|yAngle| < 2)

/-! ## Theorems for the heading tracker and level detection -/

/-- **C1.** After first-sample initialization, for consecutive raw headings
in `[0,360)` the delta added to `cumulativeRotation` (raw difference,
adjusted by −360 when above 180 and by +360 when below −180) always lies in
`[-180, 180]`; and a previous heading of 350° followed by a raw heading of
10° adds exactly +20 (not −340). -/
theorem heading_delta_shortest_path :
    (∀ (s : HeadingState) (rawAngle : ℚ),
        s.initialized = true →
        0 ≤ s.previousAngle → s.previousAngle < 360 →
        0 ≤ rawAngle → rawAngle < 360 →
        -180 ≤ (onHeadingSample s rawAngle).cumulativeRotation - s.cumulativeRotation ∧
          (onHeadingSample s rawAngle).cumulativeRotation - s.cumulativeRotation ≤ 180) ∧
    (∀ s : HeadingState, s.initialized = true → s.previousAngle = 350 →
        (onHeadingSample s 10).cumulativeRotation = s.cumulativeRotation + 20) := by
  constructor
  · intro s rawAngle hinit h0 h1 h2 h3
    simp only [onHeadingSample, hinit, if_true, normalizeDelta]
    split_ifs with hgt hlt <;> constructor <;> linarith
  · intro s hinit hprev
    simp only [onHeadingSample, hinit, if_true, normalizeDelta, hprev]
    norm_num

/-- Witness for `heading_delta_shortest_path` at the concrete pair 350° → 10°. -/
theorem heading_delta_shortest_path_witness :
    (-180 ≤ (onHeadingSample ⟨350, 350, true⟩ 10).cumulativeRotation - (350 : ℚ) ∧
      (onHeadingSample ⟨350, 350, true⟩ 10).cumulativeRotation - (350 : ℚ) ≤ 180) ∧
    (onHeadingSample ⟨350, 350, true⟩ 10).cumulativeRotation = (350 : ℚ) + 20 :=
  ⟨heading_delta_shortest_path.1 ⟨350, 350, true⟩ 10 rfl (by norm_num) (by norm_num)
      (by norm_num) (by norm_num),
    heading_delta_shortest_path.2 ⟨350, 350, true⟩ rfl rfl⟩

/-- Congruence invariant: every single step keeps
`cumulativeRotation ≡ previousAngle (mod 360)`. -/
theorem onHeadingSample_congruence (s : HeadingState) (rawAngle : ℚ)
    (h : ∃ k : ℤ, s.cumulativeRotation = s.previousAngle + 360 * k) :
    ∃ k : ℤ, (onHeadingSample s rawAngle).cumulativeRotation =
      (onHeadingSample s rawAngle).previousAngle + 360 * k := by
  obtain ⟨k, hk⟩ := h
  by_cases hinit : s.initialized
  · simp only [onHeadingSample, hinit, if_true, normalizeDelta]
    split_ifs with hgt hlt
    · exact ⟨k - 1, by rw [hk]; push_cast; ring⟩
    · exact ⟨k + 1, by rw [hk]; push_cast; ring⟩
    · exact ⟨k, by rw [hk]; ring⟩
  · simp only [onHeadingSample, hinit, if_false]
    exact ⟨0, by simp⟩

/-- The congruence invariant survives any stream of samples. -/
theorem runHeading_congruence (samples : List ℚ) (s : HeadingState)
    (h : ∃ k : ℤ, s.cumulativeRotation = s.previousAngle + 360 * k) :
    ∃ k : ℤ, (runHeading s samples).cumulativeRotation =
      (runHeading s samples).previousAngle + 360 * k := by
  induction samples generalizing s with
  | nil => exact h
  | cons a rest ih => exact ih _ (onHeadingSample_congruence s a h)

/-- After a nonempty stream, `previousAngle` is the last raw angle processed. -/
theorem runHeading_previousAngle (samples : List ℚ) (s : HeadingState)
    (h : samples ≠ []) :
    (runHeading s samples).previousAngle = samples.getLast h := by
  induction samples generalizing s with
  | nil => exact absurd rfl h
  | cons a rest ih =>
    cases rest with
    | nil =>
      cases hinit : s.initialized <;>
        simp [runHeading, onHeadingSample, hinit, List.getLast]
    | cons b bs =>
      have : runHeading s (a :: b :: bs) = runHeading (onHeadingSample s a) (b :: bs) := rfl
      rw [this, ih (onHeadingSample s a) (List.cons_ne_nil b bs)]
      exact (List.getLast_cons (List.cons_ne_nil b bs)).symm

/-- **C10.** After processing any nonempty stream of raw headings in
`[0,360)` (the first sample included), the tracker satisfies
`cumulativeRotation ≡ heading (mod 360)` where `heading` (the last raw
angle, stored in `previousAngle`) is exactly the representative of that
congruence class in `[0,360)`. -/
theorem cumulativeRotation_mod_heading (samples : List ℚ) (hne : samples ≠ [])
    (hrange : ∀ a ∈ samples, 0 ≤ a ∧ a < 360) :
    0 ≤ (runHeading initialHeadingState samples).previousAngle ∧
    (runHeading initialHeadingState samples).previousAngle < 360 ∧
    ∃ k : ℤ, (runHeading initialHeadingState samples).cumulativeRotation =
      (runHeading initialHeadingState samples).previousAngle + 360 * k := by
  have hlast := runHeading_previousAngle samples initialHeadingState hne
  have hmem : samples.getLast hne ∈ samples := List.getLast_mem hne
  obtain ⟨hlo, hhi⟩ := hrange _ hmem
  refine ⟨by rw [hlast]; exact hlo, by rw [hlast]; exact hhi, ?_⟩
  exact runHeading_congruence samples initialHeadingState ⟨0, by simp [initialHeadingState]⟩

/-- Witness for `cumulativeRotation_mod_heading` on the stream 350° → 10°. -/
theorem cumulativeRotation_mod_heading_witness :
    0 ≤ (runHeading initialHeadingState [350, 10]).previousAngle ∧
    (runHeading initialHeadingState [350, 10]).previousAngle < 360 ∧
    ∃ k : ℤ, (runHeading initialHeadingState [350, 10]).cumulativeRotation =
      (runHeading initialHeadingState [350, 10]).previousAngle + 360 * k :=
  cumulativeRotation_mod_heading [350, 10] (by simp)
    (by intro a ha; fin_cases ha <;> constructor <;> norm_num)

/-- **C9.** `isLevel` holds iff both tilt angles are strictly below 2° in
magnitude; the boundary examples `(1.9, 1.9)` and `(2.1, 0)` decide to
`true` and `false` respectively. -/
theorem isLevel_iff_angles_below_two :
    (∀ xAngle yAngle : ℚ,
        isLevel xAngle yAngle = true ↔ |xAngle| < 2 ∧ |yAngle| < 2) ∧
    isLevel (19/10) (19/10) = true ∧ isLevel (21/10) 0 = false := by
  refine ⟨?_, ?_, ?_⟩
  · intro xAngle yAngle
    simp [isLevel]
  · simp only [isLevel, Bool.and_eq_true, decide_eq_true_eq]
    constructor <;> rw [abs_lt] <;> constructor <;> norm_num
  · have h : ¬ (|(21/10 : ℚ)| < 2) := by
      rw [abs_lt]
      push_neg
      intro h'
      norm_num
    simp [isLevel, h]

/-- Witness for `isLevel_iff_angles_below_two` at the boundary pair (1.9, 1.9). -/
theorem isLevel_iff_angles_below_two_witness :
    isLevel (19/10) (19/10) = true :=
  (isLevel_iff_angles_below_two.1 (19/10) (19/10)).mpr
    (by constructor <;> rw [abs_lt] <;> constructor <;> norm_num)

/-! ## SignalTransmitter (FlashlightScreen, second half of CompassScreen.tsx)

The SOS and Morse transmissions are async loops that set the torch flag,
`await sleep(ms)`, clear it, and re-check a mutable cancellation ref
(`sosActiveRef` / `morseActiveRef`) at specific points.  We model a run as
a list of timed events: `check b` (a read of the cancellation ref returning
`b`, taking no time) and `seg dur on` (the torch held in state `on` for
`dur` milliseconds).  Cancellation is a single instant `tc`: a check at
elapsed time `t` reads "active" iff `t < tc` (so `tc = 0` means cancelled
before the loop starts, and a `tc` larger than the whole run means never
cancelled). -/

/-- A timed on/off segment of a pulse plan (milliseconds, torch state). -/
structure Segment where
  dur : Nat
  isOn : Bool
deriving DecidableEq, Repr

/-- A timed event of a transmission run. -/
inductive TEv where
  | check (ok : Bool)
  | seg (dur : Nat) (isOn : Bool)
deriving DecidableEq, Repr

/-- Time taken by an event (checks are instantaneous). -/
def evDur : TEv → Nat
  | .check _ => 0
  | .seg d _ => d

/-- Total duration of an event trace. -/
def evsDur : List TEv → Nat
  | [] => 0
  | e :: rest => evDur e + evsDur rest

/-- The segments of an event trace, dropping the check events. -/
def segsOf : List TEv → List Segment :=
  List.filterMap fun e =>
    match e with
    | .seg d b => some ⟨d, b⟩
    | .check _ => none

/-- Pair every event with its start time, given the trace's start time. -/
def withStarts (t : Nat) : List TEv → List (Nat × TEv)
  | [] => []
  | e :: rest => (t, e) :: withStarts (t + evDur e) rest

/-- Total duration of a segment list. -/
def segsDur (l : List Segment) : Nat := (l.map Segment.dur).sum

/-! ### Morse code table and text preprocessing -/

/-- The `MORSE_CODE` dictionary (CompassScreen.tsx lines 487-496):
A-Z and 0-9 mapped to their dot/dash patterns; anything else is absent. -/
def MORSE_CODE (c : Char) : Option String :=
  match c with
  | 'A' => some ".-"    | 'B' => some "-..." | 'C' => some "-.-." | 'D' => some "-.."
  | 'E' => some "."     | 'F' => some "..-." | 'G' => some "--."  | 'H' => some "...."
  | 'I' => some ".."    | 'J' => some ".---" | 'K' => some "-.-"  | 'L' => some ".-.."
  | 'M' => some "--"    | 'N' => some "-."   | 'O' => some "---"  | 'P' => some ".--."
  | 'Q' => some "--.-"  | 'R' => some ".-."  | 'S' => some "..."  | 'T' => some "-"
  | 'U' => some "..-"   | 'V' => some "...-" | 'W' => some ".--"  | 'X' => some "-..-"
  | 'Y' => some "-.--"  | 'Z' => some "--.."
  | '0' => some "-----" | '1' => some ".----" | '2' => some "..---" | '3' => some "...--"
  | '4' => some "....-" | '5' => some "....." | '6' => some "-...." | '7' => some "--..."
  | '8' => some "---.." | '9' => some "----."
  | _ => none

/-- Helper for splitting a character list on whitespace runs: returns the
word currently being built (reading from the left) and the completed words
after it. -/
def wordsAux : List Char → List Char × List (List Char)
  | [] => ([], [])
  | c :: rest =>
    let r := wordsAux rest
    if c.isWhitespace then
      ([], if r.1.isEmpty then r.2 else r.1 :: r.2)
    else (c :: r.1, r.2)

/-- `text.trim().split(/\s+/)` (line 797): the maximal runs of
non-whitespace characters, in order.  Dropping the empty fragments models
both the trim and the `+` of the separator pattern; a whitespace-only text
yields no words (it is rejected by the guard before the split anyway). -/
def wordsOf (l : List Char) : List (List Char) :=
  let r := wordsAux l
  if r.1.isEmpty then r.2 else r.1 :: r.2

/-- `!text.trim()` — the emptiness guard of `transmitMorse` (line 737) and
`transmitMorseWithText` (line 775): true iff the text is empty or
whitespace-only. -/
def trimmedEmpty (text : String) : Bool :=
  text.toList.all Char.isWhitespace

/-- Duration of one Morse symbol: `symbol === '.' ? DOT_DURATION : DASH_DURATION`
with `DOT_DURATION = 200`, `DASH_DURATION = 600` (lines 789-791, 820). -/
def symbolDur (c : Char) : Nat := if c = '.' then 200 else 600

/-! ### The Morse pulse plan as emitted by the uncancelled loop

These mirror the three nested loops of `transmitMorseWithText`
(lines 800-851) with the cancellation checks stripped: each dot/dash is a
torch-on segment, followed by a 200 ms off gap unless it is the last
symbol; a recognized letter is followed by a 600 ms gap unless it is the
last letter of its word; an unrecognized character contributes a single
600 ms placeholder gap unconditionally; words are separated by 1400 ms. -/

/-- Inner symbol loop (lines 816-833). -/
def symbolSegs : List Char → List Segment
  | [] => []
  | s :: rest =>
    if rest.isEmpty then [⟨symbolDur s, true⟩]
    else ⟨symbolDur s, true⟩ :: ⟨200, false⟩ :: symbolSegs rest

/-- Character loop (lines 806-844), including the unrecognized-character
branch at lines 839-843 which sleeps `PAUSE_LETTERS` unconditionally. -/
def charSegs : List Char → List Segment
  | [] => []
  | c :: rest =>
    match MORSE_CODE c with
    | some pat =>
      if rest.isEmpty then symbolSegs pat.toList
      else symbolSegs pat.toList ++ ⟨600, false⟩ :: charSegs rest
    | none => ⟨600, false⟩ :: charSegs rest

/-- Word loop (lines 800-851). -/
def wordSegs : List (List Char) → List Segment
  | [] => []
  | w :: rest =>
    if rest.isEmpty then charSegs w
    else charSegs w ++ ⟨1400, false⟩ :: wordSegs rest

/-- The full Morse pulse plan for a text, after the source's preprocessing
`textToTransmit.toUpperCase().trim()` and split on whitespace runs
(lines 796-797). -/
def morsePlan (text : String) : List Segment :=
  wordSegs (wordsOf (text.toList.map Char.toUpper))

/-! ### The Morse plan as described by the specification

These definitions follow the spec's own wording ("base unit T = 200ms.
Dot = T, dash = 3T, gap-within-letter = T (omitted after last symbol),
gap-between-letters = 3T (omitted after last letter of a word),
gap-between-words = 7T (omitted after last word)") rather than the code:
blocks joined by a gap that is omitted after the last block. -/

/-- The spec's base time unit T. -/
def unitT : Nat := 200

/-- Join blocks with a separating gap, the gap being omitted after the
last block — the spec's "gap … (omitted after last …)" combinator. -/
def joinWithGap (gap : List Segment) : List (List Segment) → List Segment
  | [] => []
  | [b] => b
  | b :: rest => b ++ gap ++ joinWithGap gap rest

/-- Spec rendering of one letter's symbols: dot = T on, dash = 3T on,
joined by the gap-within-letter T (omitted after the last symbol). -/
def symbolBlockSpec (pat : String) : List Segment :=
  joinWithGap [⟨unitT, false⟩]
    (pat.toList.map fun s => [⟨if s = '.' then unitT else 3 * unitT, true⟩])

/-- Per-character block under the claim's reading: a recognized letter is
its symbol block; a character absent from the table emits no light and
owns no block of its own (it only "consumes" the letter gap separating
blocks, which — per the claim — is omitted when it is the last letter of
its word). -/
def letterBlockClaimed (c : Char) : List Segment :=
  match MORSE_CODE c with
  | some pat => symbolBlockSpec pat
  | none => []

/-- Morse plan as claimed (C4): letters joined by the 3T letter gap
(omitted after the last letter of every word, unrecognized characters
included), words joined by the 7T word gap (omitted after the last word). -/
def morsePlanClaimed (text : String) : List Segment :=
  joinWithGap [⟨7 * unitT, false⟩]
    ((wordsOf (text.toList.map Char.toUpper)).map fun w =>
      joinWithGap [⟨3 * unitT, false⟩] (w.map letterBlockClaimed))

/-- Per-character rendering under the amended reading: a recognized letter
is its symbol block followed by the 3T letter gap unless it is the last
letter of its word; an unrecognized character always contributes exactly
one 3T silent placeholder (serving as its letter gap), even as the last
character of a word. -/
def letterAmended (c : Char) (isLastOfWord : Bool) : List Segment :=
  match MORSE_CODE c with
  | some pat => symbolBlockSpec pat ++ (if isLastOfWord then [] else [⟨3 * unitT, false⟩])
  | none => [⟨3 * unitT, false⟩]

/-- All letters of a word under the amended reading. -/
def lettersAmended : List Char → List Segment
  | [] => []
  | [c] => letterAmended c true
  | c :: rest => letterAmended c false ++ lettersAmended rest

/-- Morse plan under the amended reading of C4. -/
def morsePlanAmended (text : String) : List Segment :=
  joinWithGap [⟨7 * unitT, false⟩]
    ((wordsOf (text.toList.map Char.toUpper)).map fun w => lettersAmended w)

/-! ### The cancellable Morse run (transmitMorseWithText, lines 799-851)

Checks (`if (!morseActiveRef.current) break`) sit at the top of the word,
character and symbol loops.  A failed check breaks only its own loop: the
gap sleeps that follow a loop (inter-letter 600 ms, inter-word 1400 ms)
are executed with no further check, so they still run after a
cancellation observed inside the inner loops. -/

/-- Symbol loop with cancellation (lines 816-833). -/
def runSymbols (tc : Nat) : List Char → Nat → List TEv × Nat
  | [], t => ([], t)
  | s :: rest, t =>
    if t < tc then
      let d := symbolDur s
      if rest.isEmpty then ([.check true, .seg d true], t + d)
      else
        let r := runSymbols tc rest (t + d + 200)
        (.check true :: .seg d true :: .seg 200 false :: r.1, r.2)
    else ([.check false], t)

/-- Character loop with cancellation (lines 806-844); the inter-letter gap
at lines 836-838 and the placeholder gap at line 842 have no check. -/
def runChars (tc : Nat) : List Char → Nat → List TEv × Nat
  | [], t => ([], t)
  | c :: rest, t =>
    if t < tc then
      match MORSE_CODE c with
      | some pat =>
        let r1 := runSymbols tc pat.toList t
        if rest.isEmpty then (.check true :: r1.1, r1.2)
        else
          let r2 := runChars tc rest (r1.2 + 600)
          (.check true :: r1.1 ++ .seg 600 false :: r2.1, r2.2)
      | none =>
        let r2 := runChars tc rest (t + 600)
        (.check true :: .seg 600 false :: r2.1, r2.2)
    else ([.check false], t)

/-- Word loop with cancellation (lines 800-851); the inter-word gap at
lines 847-850 has no check. -/
def runWords (tc : Nat) : List (List Char) → Nat → List TEv × Nat
  | [], t => ([], t)
  | w :: rest, t =>
    if t < tc then
      let r1 := runChars tc w t
      if rest.isEmpty then (.check true :: r1.1, r1.2)
      else
        let r2 := runWords tc rest (r1.2 + 1400)
        (.check true :: r1.1 ++ .seg 1400 false :: r2.1, r2.2)
    else ([.check false], t)

/-- A full Morse transmission run for a text, cancelled at instant `tc`. -/
def runMorse (tc : Nat) (text : String) : List TEv × Nat :=
  runWords tc (wordsOf (text.toList.map Char.toUpper)) 0

/-! ### The cancellable SOS run (startSOS, lines 645-705)

The body of the `while (sosActiveRef.current)` loop, unrolled: three
groups of three flashes (the per-iteration `if (!sosActiveRef.current)
break` precedes every flash, and the 200 ms intra-group gap after a flash
has no check), a checked 400 ms gap after the first and second group, and
a checked 800 ms repeat gap.  Every check in this body, when it fails,
leads straight out of the `while` loop (the inner `break` falls through to
the `if (!sosActiveRef.current) break` of the outer loop), so a run is:
process the steps in order, stopping at the first failed check. -/

/-- One step of the unrolled SOS loop body: a cancellation check, or a
timed torch segment. -/
inductive Step where
  | check
  | seg (dur : Nat) (isOn : Bool)
deriving DecidableEq, Repr

/-- The unrolled body of the SOS `while` loop (lines 664-700):
`SHORT_FLASH = 200`, `LONG_FLASH = 600`, `PAUSE = 200`,
`PATTERN_PAUSE = 800`, groups separated by `PAUSE * 2 = 400`. -/
def sosBody : List Step :=
  [.check, .seg 200 true, .seg 200 false,
   .check, .seg 200 true, .seg 200 false,
   .check, .seg 200 true,
   .check, .seg 400 false,
   .check, .seg 600 true, .seg 200 false,
   .check, .seg 600 true, .seg 200 false,
   .check, .seg 600 true,
   .check, .seg 400 false,
   .check, .seg 200 true, .seg 200 false,
   .check, .seg 200 true, .seg 200 false,
   .check, .seg 200 true,
   .check, .seg 800 false]

/-- Run a list of steps from time `t`: segments always execute; a check
reads the flag (recording the result) and a failed check stops the run
(third component `true` means the run was broken by a failed check). -/
def runSteps (tc : Nat) : List Step → Nat → List TEv × Nat × Bool
  | [], t => ([], t, false)
  | .check :: rest, t =>
    if t < tc then
      let r := runSteps tc rest t
      (.check true :: r.1, r.2)
    else ([.check false], t, true)
  | .seg d b :: rest, t =>
    let r := runSteps tc rest (t + d)
    (.seg d b :: r.1, r.2)

/-- The SOS `while` loop with `fuel` as the maximum number of iterations
observed (the loop itself never terminates unless cancelled): re-check the
flag as the loop condition, run the body, repeat. -/
def runSOS (tc : Nat) : Nat → Nat → List TEv × Nat
  | 0, t => ([], t)
  | fuel + 1, t =>
    if t < tc then
      let r := runSteps tc sosBody t
      if r.2.2 then (.check true :: r.1, r.2.1)
      else
        let r2 := runSOS tc fuel r.2.1
        (.check true :: r.1 ++ r2.1, r2.2)
    else ([.check false], t)

/-- One SOS cycle as described by the spec: three groups — short(×3),
long(×3), short(×3) — short = 200 ms on, long = 600 ms on, the 200 ms
intra-group gap omitted after the last element of a group, 400 ms between
groups, 800 ms before the whole pattern repeats. -/
def sosGroupSpec (flashDur : Nat) : List Segment :=
  joinWithGap [⟨200, false⟩] (List.replicate 3 [⟨flashDur, true⟩])

/-- The full spec SOS cycle, trailing repeat gap included. -/
def sosCycleSpec : List Segment :=
  sosGroupSpec 200 ++ [⟨400, false⟩] ++ sosGroupSpec 600 ++ [⟨400, false⟩] ++
    sosGroupSpec 200 ++ [⟨800, false⟩]

/-! ### Synchronous component state (FlashlightScreen)

The state visible to React plus the two cancellation refs.  The
synchronous prefixes of the start/stop handlers are pure functions on it;
the loop epilogues (the code after the SOS `while` loop, and the `finally`
block of `transmitMorseWithText`) are modelled as separate operations. -/

/-- FlashlightScreen state: `isFlashlightOn`, `sosMode`, `isTransmitting`,
`currentChar`, and the refs `sosActiveRef`, `morseActiveRef`
(lines 522-529). -/
structure FState where
  isFlashlightOn : Bool
  sosMode : Bool
  isTransmitting : Bool
  sosActive : Bool
  morseActive : Bool
  currentChar : Option String
deriving DecidableEq, Repr

/-- Initial component state (all flags false / empty). -/
def initFState : FState :=
  { isFlashlightOn := false, sosMode := false, isTransmitting := false,
    sosActive := false, morseActive := false, currentChar := none }

/-- `stopSOS` (lines 714-718): clear the ref, leave SOS mode, force the
torch off. -/
def stopSOSfn (s : FState) : FState :=
  { s with sosActive := false, sosMode := false, isFlashlightOn := false }

/-- `stopMorse` (lines 870-875): clear the ref, leave transmitting state,
force the torch off, clear the displayed character. -/
def stopMorsefn (s : FState) : FState :=
  { s with morseActive := false, isTransmitting := false,
           isFlashlightOn := false, currentChar := none }

/-- Synchronous prefix of `startSOS` (lines 645-657, permission granted):
stop Morse if it is transmitting, then enter SOS mode and raise the ref. -/
def startSOSsync (s : FState) : FState :=
  let s1 := if s.isTransmitting then stopMorsefn s else s
  { s1 with sosMode := true, sosActive := true }

/-- Result reported by the Morse start handler. -/
inductive StartResult where
  | started
  | invalidText
deriving DecidableEq, Repr

/-- Synchronous prefix of `transmitMorseWithText` (lines 769-787,
permission granted): reject empty / whitespace-only text before touching
any state, otherwise stop SOS if active, then enter transmitting state and
raise the ref.  (`transmitMorse`, lines 736-742, applies the same
`!text.trim()` guard before delegating here.) -/
def startMorseSync (s : FState) (text : String) : FState × StartResult :=
  if trimmedEmpty text then (s, .invalidText)
  else
    let s1 := if s.sosMode then stopSOSfn s else s
    ({ s1 with isTransmitting := true, morseActive := true, currentChar := none },
      .started)

/-- Code after the SOS `while` loop exits (lines 702-704): torch off,
leave SOS mode. -/
def sosEpilogue (s : FState) : FState :=
  { s with isFlashlightOn := false, sosMode := false }

/-- The `finally` block of `transmitMorseWithText` (lines 854-860): torch
off, leave transmitting state, clear displayed character and the ref. -/
def morseEpilogue (s : FState) : FState :=
  { s with isFlashlightOn := false, isTransmitting := false,
           currentChar := none, morseActive := false }

/-- `toggleFlashlight` (lines 600-612): rejected while SOS or Morse is
active, otherwise flip the torch. -/
def toggleFlashlightFn (s : FState) : FState :=
  if s.sosMode || s.isTransmitting then s
  else { s with isFlashlightOn := !s.isFlashlightOn }

/-- The spec's transmission state, derived from the component state. -/
inductive TransmissionState where
  | Idle
  | RunningSOS
  | RunningMorse
deriving DecidableEq, Repr

/-- Mode abstraction: `sosMode` means RunningSOS, else `isTransmitting`
means RunningMorse, else Idle. -/
def modeOf (s : FState) : TransmissionState :=
  if s.sosMode then .RunningSOS
  else if s.isTransmitting then .RunningMorse
  else .Idle

/-- States reachable through the synchronous operations.  The SOS epilogue
can only run once the loop has observed `sosActive = false`; the Morse
`finally` block runs unconditionally at the end of the async function. -/
inductive Reachable : FState → Prop where
  | init : Reachable initFState
  | startSOS {s} : Reachable s → Reachable (startSOSsync s)
  | stopSOS {s} : Reachable s → Reachable (stopSOSfn s)
  | startMorse {s} (text : String) : Reachable s → Reachable (startMorseSync s text).1
  | stopMorse {s} : Reachable s → Reachable (stopMorsefn s)
  | toggle {s} : Reachable s → Reachable (toggleFlashlightFn s)
  | sosDone {s} : Reachable s → s.sosActive = false → Reachable (sosEpilogue s)
  | morseDone {s} : Reachable s → Reachable (morseEpilogue s)

/-- Structural invariant of the component state. -/
def FInv (s : FState) : Prop :=
  s.morseActive = s.isTransmitting ∧
  (s.sosMode = true → s.isTransmitting = false) ∧
  (s.sosActive = true → s.sosMode = true) ∧
  (s.isTransmitting = false → s.currentChar = none)

/-! ## Morse plan structure (claims C4 and C6) -/

/-- The source's symbol loop emits exactly the spec's symbol block: dot/dash
segments joined by the within-letter gap, omitted after the last symbol. -/
theorem symbolSegs_eq (l : List Char) :
    symbolSegs l =
      joinWithGap [⟨unitT, false⟩]
        (l.map fun s => [⟨if s = '.' then unitT else 3 * unitT, true⟩]) := by
  induction l with
  | nil => rfl
  | cons s rest ih =>
    cases rest with
    | nil => simp [symbolSegs, joinWithGap, symbolDur, unitT]
    | cons b bs =>
      have hstep : symbolSegs (s :: b :: bs) =
          ⟨symbolDur s, true⟩ :: ⟨200, false⟩ :: symbolSegs (b :: bs) := by
        simp [symbolSegs]
      rw [hstep, ih]
      simp [joinWithGap, symbolDur, unitT]

/-- The source's character loop emits exactly the amended per-letter
rendering: recognized letters carry a trailing 3T gap unless last in the
word, unrecognized characters always contribute one 3T placeholder. -/
theorem charSegs_eq (l : List Char) : charSegs l = lettersAmended l := by
  induction l with
  | nil => rfl
  | cons c rest ih =>
    cases rest with
    | nil =>
      cases h : MORSE_CODE c with
      | some pat =>
        simp [charSegs, lettersAmended, letterAmended, h, symbolBlockSpec, symbolSegs_eq]
      | none => simp [charSegs, lettersAmended, letterAmended, h, unitT]
    | cons b bs =>
      cases h : MORSE_CODE c with
      | some pat =>
        have hstep : charSegs (c :: b :: bs) =
            symbolSegs pat.toList ++ ⟨600, false⟩ :: charSegs (b :: bs) := by
          simp [charSegs, h]
        rw [hstep, ih]
        show _ = letterAmended c false ++ lettersAmended (b :: bs)
        simp [letterAmended, h, symbolBlockSpec, symbolSegs_eq, unitT]
      | none =>
        have hstep : charSegs (c :: b :: bs) =
            ⟨600, false⟩ :: charSegs (b :: bs) := by
          simp [charSegs, h]
        rw [hstep, ih]
        show _ = letterAmended c false ++ lettersAmended (b :: bs)
        simp [letterAmended, h, unitT]

/-- The source's word loop emits exactly the amended word blocks joined by
the 7T word gap, omitted after the last word. -/
theorem wordSegs_eq (ws : List (List Char)) :
    wordSegs ws = joinWithGap [⟨7 * unitT, false⟩] (ws.map fun w => lettersAmended w) := by
  induction ws with
  | nil => rfl
  | cons w rest ih =>
    cases rest with
    | nil => simp [wordSegs, joinWithGap, charSegs_eq, unitT]
    | cons v vs =>
      have hstep : wordSegs (w :: v :: vs) =
          charSegs w ++ ⟨1400, false⟩ :: wordSegs (v :: vs) := by
        simp [wordSegs]
      rw [hstep, ih]
      simp [joinWithGap, charSegs_eq, unitT]

/-- **C4, counterexample.** The claimed plan shape fails on `"A!"`: the
code's unrecognized-character branch sleeps its 3T placeholder even when
the character is the last letter of a word, while the claim omits the
letter gap there.  (Code: `[dot, gap, dash, 600 off, 600 off]`; claim:
`[dot, gap, dash, 600 off]`.) -/
theorem morse_plan_claimed_shape_fails :
    morsePlan "A!" ≠ morsePlanClaimed "A!" := by decide

/-- **C4, amended.** For every input text the generated Morse plan uses
T = 200 ms with dot = T, dash = 3T, gap-within-letter = T omitted after
the last symbol of a letter, gap-between-letters = 3T omitted after the
last letter of a word *when that letter is recognized* (an unrecognized
character instead always contributes exactly one 3T silent placeholder,
even as the last character of a word), and gap-between-words = 7T omitted
after the last word. -/
theorem morse_plan_timing (text : String) :
    morsePlan text = morsePlanAmended text :=
  wordSegs_eq (wordsOf (text.toList.map Char.toUpper))

/-- **C6.** A character absent from the Morse table is transmitted with no
light pulse but still consumes exactly one gap-between-letters pause
(600 ms off) as a silent placeholder, and transmission continues with the
remaining characters; concretely, in `"A1!B"` the `!` contributes exactly
the single 600 ms silent segment between the plans of `1` and `B`. -/
theorem unrecognized_char_silent_placeholder :
    (∀ (c : Char) (rest : List Char), MORSE_CODE c = none →
        charSegs (c :: rest) = ⟨600, false⟩ :: charSegs rest) ∧
    morsePlan "A1!B" =
      [⟨200, true⟩, ⟨200, false⟩, ⟨600, true⟩,
       ⟨600, false⟩,
       ⟨200, true⟩, ⟨200, false⟩, ⟨600, true⟩, ⟨200, false⟩, ⟨600, true⟩, ⟨200, false⟩,
         ⟨600, true⟩, ⟨200, false⟩, ⟨600, true⟩,
       ⟨600, false⟩,
       ⟨600, false⟩,
       ⟨600, true⟩, ⟨200, false⟩, ⟨200, true⟩, ⟨200, false⟩, ⟨200, true⟩, ⟨200, false⟩,
         ⟨200, true⟩] := by
  constructor
  · intro c rest h
    simp [charSegs, h]
  · decide

/-- Witness for `unrecognized_char_silent_placeholder` at `!` followed by `B`. -/
theorem unrecognized_char_silent_placeholder_witness :
    charSegs ['!', 'B'] = ⟨600, false⟩ :: charSegs ['B'] :=
  unrecognized_char_silent_placeholder.1 '!' ['B'] (by decide)

/-! ## SOS cycle structure (claim C5) -/

/-- Total duration of a step list's segments. -/
def stepsDur : List Step → Nat
  | [] => 0
  | .check :: r => stepsDur r
  | .seg d _ :: r => d + stepsDur r

/-- The event trace of a step list none of whose checks fail. -/
def evsOfSteps : List Step → List TEv
  | [] => []
  | .check :: r => .check true :: evsOfSteps r
  | .seg d b :: r => .seg d b :: evsOfSteps r

/-- If cancellation lies beyond the whole step list, the run completes:
all checks pass and the elapsed time advances by the total duration. -/
theorem runSteps_complete (tc : Nat) (steps : List Step) :
    ∀ t, t + stepsDur steps < tc →
      runSteps tc steps t = (evsOfSteps steps, t + stepsDur steps, false) := by
  induction steps with
  | nil =>
    intro t h
    simp [runSteps, evsOfSteps, stepsDur]
  | cons s rest ih =>
    intro t h
    cases s with
    | check =>
      simp only [stepsDur] at h
      have ht : t < tc := by omega
      simp only [runSteps, ht, if_true]
      rw [ih t h]
      simp [evsOfSteps, stepsDur]
    | seg d b =>
      simp only [stepsDur] at h
      simp only [runSteps]
      rw [ih (t + d) (by omega)]
      simp only [evsOfSteps, stepsDur, Prod.mk.injEq]
      refine ⟨trivial, by omega, trivial⟩

/-- Event trace of `n` uncancelled iterations of the SOS while loop. -/
def cycleEvs : Nat → List TEv
  | 0 => []
  | n + 1 => .check true :: evsOfSteps sosBody ++ cycleEvs n

/-- If cancellation lies beyond `n` whole cycles, the SOS loop runs exactly
`n` cycles of 5800 ms each. -/
theorem runSOS_complete (tc : Nat) :
    ∀ n t, t + n * 5800 < tc → runSOS tc n t = (cycleEvs n, t + n * 5800) := by
  intro n
  induction n with
  | zero =>
    intro t h
    simp [runSOS, cycleEvs]
  | succ n ih =>
    intro t h
    have hdur : stepsDur sosBody = 5800 := by decide
    have ht : t < tc := by omega
    have hbody : t + stepsDur sosBody < tc := by rw [hdur]; omega
    simp only [runSOS, ht, if_true]
    rw [runSteps_complete tc sosBody t hbody, hdur]
    simp only [cycleEvs, Bool.false_eq_true, if_false]
    rw [ih (t + 5800) (by omega)]
    simp only [Prod.mk.injEq, List.cons_append]
    refine ⟨trivial, by omega⟩

/-- `segsOf` distributes over trace concatenation. -/
theorem segsOf_append (a b : List TEv) : segsOf (a ++ b) = segsOf a ++ segsOf b :=
  List.filterMap_append a b _

/-- The segments of one uncancelled SOS body are exactly the spec cycle. -/
theorem sosBody_segs : segsOf (evsOfSteps sosBody) = sosCycleSpec := by decide

/-- The segments of `n` uncancelled cycles are `n` copies of the spec cycle. -/
theorem segsOf_cycleEvs (n : Nat) :
    segsOf (cycleEvs n) = List.flatten (List.replicate n sosCycleSpec) := by
  induction n with
  | zero => rfl
  | succ n ih =>
    have h1 : segsOf (cycleEvs (n + 1)) =
        segsOf (evsOfSteps sosBody) ++ segsOf (cycleEvs n) := by
      simp [cycleEvs, segsOf, List.filterMap_cons, List.filterMap_append]
    rw [h1, sosBody_segs, ih, List.replicate_succ, List.flatten_cons]

/-- **C5.** As long as it is not cancelled, the SOS transmission repeats
the fixed cycle — three short flashes (200 ms on), three long (600 ms on),
three short, with the 200 ms intra-group gap omitted after the last flash
of a group, 400 ms between groups and an 800 ms repeat gap — once per
5800 ms iteration, for every number of iterations `n` (it never stops on
its own). -/
theorem sos_repeats_cycle_until_cancelled (n tc : Nat) (h : n * 5800 < tc) :
    segsOf (runSOS tc n 0).1 = List.flatten (List.replicate n sosCycleSpec) := by
  rw [runSOS_complete tc n 0 (by omega)]
  exact segsOf_cycleEvs n

/-- Witness for `sos_repeats_cycle_until_cancelled`: one full cycle. -/
theorem sos_repeats_cycle_until_cancelled_witness :
    segsOf (runSOS 5801 1 0).1 = List.flatten (List.replicate 1 sosCycleSpec) :=
  sos_repeats_cycle_until_cancelled 1 5801 (by omega)

/-! ## Cancellation behaviour (claim C3)

The claim says the flag is checked at the start of *every* segment.  In the
code, checks precede every torch-on segment (each flash) but the off gaps
that follow a flash — and the Morse inter-letter / inter-word gaps — run
with no check of their own. -/

/-- Is this event a flag check? -/
def isCheckEv : TEv → Bool
  | .check _ => true
  | .seg _ _ => false

/-- Helper: every segment of the trace directly follows a check event; the
previous event is threaded as the first argument. -/
def checkedSegsFrom : TEv → List TEv → Bool
  | _, [] => true
  | prev, e :: rest =>
    (match e with
     | .seg _ _ => isCheckEv prev
     | .check _ => true) && checkedSegsFrom e rest

/-- "The cancellation flag is checked at the start of every segment": each
segment of the trace is immediately preceded by a check (a trace beginning
with a segment fails, hence the non-check seed). -/
def checkedEverySeg (l : List TEv) : Bool :=
  checkedSegsFrom (.seg 0 false) l

/-- Every torch-on segment of a timed trace starts strictly before the
cancellation instant `tc`. -/
def pulseStartsOk (tc : Nat) : List (Nat × TEv) → Bool
  | [] => true
  | p :: rest =>
    (match p.2 with
     | .seg _ true => decide (p.1 < tc)
     | _ => true) && pulseStartsOk tc rest

/-- **C3, counterexample.**  Even in a completely uncancelled run (here a
single SOS cycle, cancellation instant 6000 beyond the 5800 ms cycle), the
trace contains segments not immediately preceded by a flag check: the
200 ms intra-group gap after each flash is bundled with the flash, so "the
cancellation flag is checked at the start of every segment" is false of
the code. -/
theorem cancellation_checked_every_segment_fails :
    checkedEverySeg (runSOS 6000 1 0).1 = false := by decide

/-- `evsDur` over a concatenation. -/
theorem evsDur_append (a b : List TEv) : evsDur (a ++ b) = evsDur a + evsDur b := by
  induction a with
  | nil => simp [evsDur]
  | cons e rest ih => simp [evsDur, ih, Nat.add_assoc]

/-- `withStarts` over a concatenation: the second part starts after the
first part's duration. -/
theorem withStarts_append (a b : List TEv) :
    ∀ t, withStarts t (a ++ b) = withStarts t a ++ withStarts (t + evsDur a) b := by
  induction a with
  | nil => intro t; simp [withStarts, evsDur]
  | cons e rest ih =>
    intro t
    simp only [List.cons_append, withStarts, List.append_eq, evsDur]
    rw [ih (t + evDur e), Nat.add_assoc]

/-- `pulseStartsOk` over a concatenation. -/
theorem pulseStartsOk_append (tc : Nat) :
    ∀ x y, pulseStartsOk tc (x ++ y) = (pulseStartsOk tc x && pulseStartsOk tc y) := by
  intro x y
  induction x with
  | nil => simp [pulseStartsOk]
  | cons p rest ih => simp [pulseStartsOk, ih, Bool.and_assoc]

/-! ### One-step unfoldings of the Morse loops -/

/-- Unfolding: symbol loop, cancelled at the top check. -/
theorem runSymbols_stop (tc : Nat) (s : Char) (rest : List Char) (t : Nat) (ht : ¬ t < tc) :
    runSymbols tc (s :: rest) t = ([.check false], t) := by
  simp [runSymbols, ht]

/-- Unfolding: last symbol of a letter. -/
theorem runSymbols_single (tc : Nat) (s : Char) (t : Nat) (ht : t < tc) :
    runSymbols tc [s] t = ([.check true, .seg (symbolDur s) true], t + symbolDur s) := by
  simp [runSymbols, ht]

/-- Unfolding: a symbol with more to follow. -/
theorem runSymbols_cons_cons (tc : Nat) (s b : Char) (bs : List Char) (t : Nat) (ht : t < tc) :
    runSymbols tc (s :: b :: bs) t =
      (.check true :: .seg (symbolDur s) true :: .seg 200 false ::
          (runSymbols tc (b :: bs) (t + symbolDur s + 200)).1,
        (runSymbols tc (b :: bs) (t + symbolDur s + 200)).2) := by
  simp [runSymbols, ht]

/-- Unfolding: character loop, cancelled at the top check. -/
theorem runChars_stop (tc : Nat) (c : Char) (rest : List Char) (t : Nat) (ht : ¬ t < tc) :
    runChars tc (c :: rest) t = ([.check false], t) := by
  simp [runChars, ht]

/-- Unfolding: last character of a word, recognized. -/
theorem runChars_single_some (tc : Nat) (c : Char) (pat : String) (t : Nat)
    (ht : t < tc) (h : MORSE_CODE c = some pat) :
    runChars tc [c] t =
      (.check true :: (runSymbols tc pat.toList t).1, (runSymbols tc pat.toList t).2) := by
  simp [runChars, ht, h]

/-- Unfolding: a recognized character with more to follow (the 600 ms
inter-letter gap runs with no check). -/
theorem runChars_cons_some (tc : Nat) (c b : Char) (bs : List Char) (pat : String) (t : Nat)
    (ht : t < tc) (h : MORSE_CODE c = some pat) :
    runChars tc (c :: b :: bs) t =
      (.check true :: (runSymbols tc pat.toList t).1 ++ .seg 600 false ::
          (runChars tc (b :: bs) ((runSymbols tc pat.toList t).2 + 600)).1,
        (runChars tc (b :: bs) ((runSymbols tc pat.toList t).2 + 600)).2) := by
  simp [runChars, ht, h]

/-- Unfolding: an unrecognized character (the 600 ms placeholder runs with
no check, regardless of position). -/
theorem runChars_cons_none (tc : Nat) (c : Char) (rest : List Char) (t : Nat)
    (ht : t < tc) (h : MORSE_CODE c = none) :
    runChars tc (c :: rest) t =
      (.check true :: .seg 600 false :: (runChars tc rest (t + 600)).1,
        (runChars tc rest (t + 600)).2) := by
  simp [runChars, ht, h]

/-- Unfolding: word loop, cancelled at the top check. -/
theorem runWords_stop (tc : Nat) (w : List Char) (rest : List (List Char)) (t : Nat)
    (ht : ¬ t < tc) :
    runWords tc (w :: rest) t = ([.check false], t) := by
  simp [runWords, ht]

/-- Unfolding: last word. -/
theorem runWords_single (tc : Nat) (w : List Char) (t : Nat) (ht : t < tc) :
    runWords tc [w] t =
      (.check true :: (runChars tc w t).1, (runChars tc w t).2) := by
  simp [runWords, ht]

/-- Unfolding: a word with more to follow (the 1400 ms inter-word gap runs
with no check). -/
theorem runWords_cons (tc : Nat) (w v : List Char) (vs : List (List Char)) (t : Nat)
    (ht : t < tc) :
    runWords tc (w :: v :: vs) t =
      (.check true :: (runChars tc w t).1 ++ .seg 1400 false ::
          (runWords tc (v :: vs) ((runChars tc w t).2 + 1400)).1,
        (runWords tc (v :: vs) ((runChars tc w t).2 + 1400)).2) := by
  simp [runWords, ht]

/-! ### Elapsed time equals trace duration (Morse loops) -/

/-- Elapsed time of a symbol-loop run equals its trace duration. -/
theorem runSymbols_elapsed (tc : Nat) :
    ∀ (l : List Char) (t : Nat), (runSymbols tc l t).2 = t + evsDur (runSymbols tc l t).1 := by
  intro l
  induction l with
  | nil => intro t; simp [runSymbols, evsDur]
  | cons s rest ih =>
    intro t
    by_cases ht : t < tc
    · cases rest with
      | nil => simp [runSymbols_single tc s t ht, evsDur, evDur]
      | cons b bs =>
        rw [runSymbols_cons_cons tc s b bs t ht]
        rw [ih (t + symbolDur s + 200)]
        simp [evsDur, evDur]
        omega
    · simp [runSymbols_stop tc s rest t ht, evsDur, evDur]

/-- Elapsed time of a character-loop run equals its trace duration. -/
theorem runChars_elapsed (tc : Nat) :
    ∀ (l : List Char) (t : Nat), (runChars tc l t).2 = t + evsDur (runChars tc l t).1 := by
  intro l
  induction l with
  | nil => intro t; simp [runChars, evsDur]
  | cons c rest ih =>
    intro t
    by_cases ht : t < tc
    · cases h : MORSE_CODE c with
      | some pat =>
        cases rest with
        | nil =>
          rw [runChars_single_some tc c pat t ht h, runSymbols_elapsed tc pat.toList t]
          simp [evsDur, evDur]
        | cons b bs =>
          rw [runChars_cons_some tc c b bs pat t ht h]
          rw [ih ((runSymbols tc pat.toList t).2 + 600), runSymbols_elapsed tc pat.toList t]
          simp [evsDur, evDur, evsDur_append]
          omega
      | none =>
        rw [runChars_cons_none tc c rest t ht h, ih (t + 600)]
        simp [evsDur, evDur]
        omega
    · simp [runChars_stop tc c rest t ht, evsDur, evDur]

/-- Elapsed time of a word-loop run equals its trace duration. -/
theorem runWords_elapsed (tc : Nat) :
    ∀ (ws : List (List Char)) (t : Nat),
      (runWords tc ws t).2 = t + evsDur (runWords tc ws t).1 := by
  intro ws
  induction ws with
  | nil => intro t; simp [runWords, evsDur]
  | cons w rest ih =>
    intro t
    by_cases ht : t < tc
    · cases rest with
      | nil =>
        rw [runWords_single tc w t ht, runChars_elapsed tc w t]
        simp [evsDur, evDur]
      | cons v vs =>
        rw [runWords_cons tc w v vs t ht]
        rw [ih ((runChars tc w t).2 + 1400), runChars_elapsed tc w t]
        simp [evsDur, evDur, evsDur_append]
        omega
    · simp [runWords_stop tc w rest t ht, evsDur, evDur]

/-! ### No pulse begins at or after cancellation (Morse loops) -/

/-- In the symbol loop, every torch-on segment begins before `tc`. -/
theorem runSymbols_pulses (tc : Nat) :
    ∀ (l : List Char) (t : Nat),
      pulseStartsOk tc (withStarts t (runSymbols tc l t).1) = true := by
  intro l
  induction l with
  | nil => intro t; simp [runSymbols, withStarts, pulseStartsOk]
  | cons s rest ih =>
    intro t
    by_cases ht : t < tc
    · cases rest with
      | nil => simp [runSymbols_single tc s t ht, withStarts, pulseStartsOk, evDur, ht]
      | cons b bs =>
        rw [runSymbols_cons_cons tc s b bs t ht]
        simp [withStarts, evDur, pulseStartsOk, ht, ih (t + symbolDur s + 200)]
    · simp [runSymbols_stop tc s rest t ht, withStarts, pulseStartsOk]

/-- In the character loop, every torch-on segment begins before `tc`. -/
theorem runChars_pulses (tc : Nat) :
    ∀ (l : List Char) (t : Nat),
      pulseStartsOk tc (withStarts t (runChars tc l t).1) = true := by
  intro l
  induction l with
  | nil => intro t; simp [runChars, withStarts, pulseStartsOk]
  | cons c rest ih =>
    intro t
    by_cases ht : t < tc
    · cases h : MORSE_CODE c with
      | some pat =>
        cases rest with
        | nil =>
          rw [runChars_single_some tc c pat t ht h]
          simp [withStarts, evDur, pulseStartsOk, runSymbols_pulses tc pat.data t]
        | cons b bs =>
          rw [runChars_cons_some tc c b bs pat t ht h]
          have e1 : t + evsDur (runSymbols tc pat.data t).1 = (runSymbols tc pat.data t).2 :=
            (runSymbols_elapsed tc pat.data t).symm
          simp [withStarts, evDur, withStarts_append, pulseStartsOk_append, pulseStartsOk, e1,
            runSymbols_pulses tc pat.data t, ih ((runSymbols tc pat.data t).2 + 600)]
      | none =>
        rw [runChars_cons_none tc c rest t ht h]
        simp [withStarts, evDur, pulseStartsOk, ih (t + 600)]
    · simp [runChars_stop tc c rest t ht, withStarts, pulseStartsOk]

/-- In the word loop, every torch-on segment begins before `tc`. -/
theorem runWords_pulses (tc : Nat) :
    ∀ (ws : List (List Char)) (t : Nat),
      pulseStartsOk tc (withStarts t (runWords tc ws t).1) = true := by
  intro ws
  induction ws with
  | nil => intro t; simp [runWords, withStarts, pulseStartsOk]
  | cons w rest ih =>
    intro t
    by_cases ht : t < tc
    · cases rest with
      | nil =>
        rw [runWords_single tc w t ht]
        simp [withStarts, evDur, pulseStartsOk, runChars_pulses tc w t]
      | cons v vs =>
        rw [runWords_cons tc w v vs t ht]
        have e1 : t + evsDur (runChars tc w t).1 = (runChars tc w t).2 :=
          (runChars_elapsed tc w t).symm
        simp [withStarts, evDur, withStarts_append, pulseStartsOk_append, pulseStartsOk, e1,
          runChars_pulses tc w t, ih ((runChars tc w t).2 + 1400)]
    · simp [runWords_stop tc w rest t ht, withStarts, pulseStartsOk]

/-! ### No pulse begins at or after cancellation (SOS loop), and exit latency -/

/-- Unfolding: a passed check in the step list. -/
theorem runSteps_check_pass (tc : Nat) (rest : List Step) (t : Nat) (ht : t < tc) :
    runSteps tc (.check :: rest) t =
      (.check true :: (runSteps tc rest t).1, (runSteps tc rest t).2) := by
  simp [runSteps, ht]

/-- Unfolding: a failed check stops the run. -/
theorem runSteps_check_fail (tc : Nat) (rest : List Step) (t : Nat) (ht : ¬ t < tc) :
    runSteps tc (.check :: rest) t = ([.check false], t, true) := by
  simp [runSteps, ht]

/-- Unfolding: a segment step always executes. -/
theorem runSteps_seg (tc : Nat) (d : Nat) (b : Bool) (rest : List Step) (t : Nat) :
    runSteps tc (.seg d b :: rest) t =
      (.seg d b :: (runSteps tc rest (t + d)).1, (runSteps tc rest (t + d)).2) := by
  simp [runSteps]

/-- Elapsed time of a step run equals its trace duration. -/
theorem runSteps_elapsed (tc : Nat) :
    ∀ (steps : List Step) (t : Nat),
      (runSteps tc steps t).2.1 = t + evsDur (runSteps tc steps t).1 := by
  intro steps
  induction steps with
  | nil => intro t; simp [runSteps, evsDur]
  | cons s rest ih =>
    intro t
    cases s with
    | check =>
      by_cases ht : t < tc
      · rw [runSteps_check_pass tc rest t ht]
        simp [evsDur, evDur, ih t]
      · rw [runSteps_check_fail tc rest t ht]
        simp [evsDur, evDur]
    | seg d b =>
      rw [runSteps_seg tc d b rest t]
      simp [evsDur, evDur, ih (t + d)]
      omega

/-- Is this step a flag check? -/
def isCheckStep : Step → Bool
  | .check => true
  | .seg _ _ => false

/-- Every torch-on step is immediately preceded by a check step; the
previous step is threaded as the first argument. -/
def onsCheckedFrom : Step → List Step → Bool
  | _, [] => true
  | prev, s :: rest =>
    (match s with
     | .seg _ true => isCheckStep prev
     | _ => true) && onsCheckedFrom s rest

/-- If in the step list every torch-on step directly follows a check (and
the list does not itself begin with an unguarded torch-on step unless the
flag is still up), then every torch-on segment of the run starts before
`tc`. -/
theorem runSteps_pulses (tc : Nat) :
    ∀ (steps : List Step) (prev : Step) (t : Nat),
      onsCheckedFrom prev steps = true →
      (∀ d rest, steps = Step.seg d true :: rest → t < tc) →
      pulseStartsOk tc (withStarts t (runSteps tc steps t).1) = true := by
  intro steps
  induction steps with
  | nil => intro prev t _ _; simp [runSteps, withStarts, pulseStartsOk]
  | cons s rest ih =>
    intro prev t hchk hhd
    cases s with
    | check =>
      simp only [onsCheckedFrom, Bool.true_and] at hchk
      by_cases ht : t < tc
      · rw [runSteps_check_pass tc rest t ht]
        simp only [withStarts, evDur, Nat.add_zero, pulseStartsOk, Bool.true_and]
        exact ih Step.check t hchk (fun d rest' _ => ht)
      · rw [runSteps_check_fail tc rest t ht]
        simp [withStarts, pulseStartsOk]
    | seg d b =>
      cases b with
      | true =>
        have ht : t < tc := hhd d rest rfl
        simp only [onsCheckedFrom, Bool.and_eq_true] at hchk
        rw [runSteps_seg tc d true rest t]
        simp only [withStarts, evDur, pulseStartsOk, Bool.and_eq_true, decide_eq_true_eq]
        refine ⟨ht, ?_⟩
        refine ih (Step.seg d true) (t + d) hchk.2 ?_
        intro d' rest' heq
        rw [heq] at hchk
        simp [onsCheckedFrom, isCheckStep] at hchk
      | false =>
        simp only [onsCheckedFrom, Bool.true_and] at hchk
        rw [runSteps_seg tc d false rest t]
        simp only [withStarts, evDur, pulseStartsOk, Bool.true_and]
        refine ih (Step.seg d false) (t + d) hchk ?_
        intro d' rest' heq
        rw [heq] at hchk
        simp [onsCheckedFrom, isCheckStep] at hchk

/-- Unfolding: SOS while-loop iteration with the flag still up. -/
theorem runSOS_go (tc fuel t : Nat) (ht : t < tc) :
    runSOS tc (fuel + 1) t =
      (if (runSteps tc sosBody t).2.2 then
        (.check true :: (runSteps tc sosBody t).1, (runSteps tc sosBody t).2.1)
      else
        (.check true :: (runSteps tc sosBody t).1 ++
            (runSOS tc fuel (runSteps tc sosBody t).2.1).1,
          (runSOS tc fuel (runSteps tc sosBody t).2.1).2)) := by
  simp [runSOS, ht]

/-- Unfolding: SOS while-loop with the flag down. -/
theorem runSOS_stop (tc fuel t : Nat) (ht : ¬ t < tc) :
    runSOS tc (fuel + 1) t = ([.check false], t) := by
  simp [runSOS, ht]

/-- Every torch-on segment of an SOS run (from any start time) begins
strictly before the cancellation instant. -/
theorem runSOS_pulses (tc : Nat) :
    ∀ (fuel t : Nat), pulseStartsOk tc (withStarts t (runSOS tc fuel t).1) = true := by
  intro fuel
  induction fuel with
  | zero => intro t; simp [runSOS, withStarts, pulseStartsOk]
  | succ fuel ih =>
    intro t
    by_cases ht : t < tc
    · have hchk : onsCheckedFrom Step.check sosBody = true := by decide
      have hhd : ∀ d rest, sosBody = Step.seg d true :: rest → t < tc := by
        intro d rest heq
        simp [sosBody] at heq
      have hbody := runSteps_pulses tc sosBody Step.check t hchk hhd
      rw [runSOS_go tc fuel t ht]
      by_cases hbrk : (runSteps tc sosBody t).2.2
      · simp only [hbrk, if_true]
        simp [withStarts, evDur, pulseStartsOk, hbody]
      · simp only [hbrk, Bool.false_eq_true, if_false]
        have e1 : t + evsDur (runSteps tc sosBody t).1 = (runSteps tc sosBody t).2.1 :=
          (runSteps_elapsed tc sosBody t).symm
        simp [withStarts, evDur, withStarts_append, pulseStartsOk_append, pulseStartsOk,
          e1, hbody, ih (runSteps tc sosBody t).2.1]
    · rw [runSOS_stop tc fuel t ht]
      simp [withStarts, pulseStartsOk]

/-- Duration of the segments preceding the first check of the step list. -/
def durToCheck : List Step → Nat
  | [] => 0
  | .check :: _ => 0
  | .seg d _ :: rest => d + durToCheck rest

/-- After every check of the step list, at most `B` milliseconds of
segments run before the next check (or the end of the list). -/
def gapsLe (B : Nat) : List Step → Bool
  | [] => true
  | .check :: rest => decide (durToCheck rest ≤ B) && gapsLe B rest
  | .seg _ _ :: rest => gapsLe B rest

/-- A step run either executes no check-free prefix beyond `durToCheck`,
or exits within `B` of the cancellation instant. -/
theorem runSteps_exit_le (tc B : Nat) :
    ∀ (steps : List Step) (t : Nat), gapsLe B steps = true →
      (runSteps tc steps t).2.1 ≤ t + durToCheck steps ∨
        (runSteps tc steps t).2.1 ≤ tc + B := by
  intro steps
  induction steps with
  | nil => intro t _; left; simp [runSteps, durToCheck]
  | cons s rest ih =>
    intro t hg
    cases s with
    | check =>
      simp only [gapsLe, Bool.and_eq_true, decide_eq_true_eq] at hg
      by_cases ht : t < tc
      · rw [runSteps_check_pass tc rest t ht]
        right
        show (runSteps tc rest t).2.1 ≤ tc + B
        rcases ih t hg.2 with hle | hle
        · omega
        · exact hle
      · rw [runSteps_check_fail tc rest t ht]
        left
        simp [durToCheck]
    | seg d b =>
      simp only [gapsLe] at hg
      rw [runSteps_seg tc d b rest t]
      rcases ih (t + d) hg with hle | hle
      · left
        simp only [durToCheck]
        omega
      · right
        exact hle

/-- An SOS run from time `t` either exits immediately at `t` or within
800 ms of the cancellation instant. -/
theorem runSOS_exit_le (tc : Nat) :
    ∀ (fuel t : Nat), (runSOS tc fuel t).2 = t ∨ (runSOS tc fuel t).2 ≤ tc + 800 := by
  intro fuel
  induction fuel with
  | zero => intro t; left; simp [runSOS]
  | succ fuel ih =>
    intro t
    by_cases ht : t < tc
    · have hgaps : gapsLe 800 sosBody = true := by decide
      have hd0 : durToCheck sosBody = 0 := by decide
      have hbody := runSteps_exit_le tc 800 sosBody t hgaps
      rw [hd0] at hbody
      have hb : (runSteps tc sosBody t).2.1 ≤ tc + 800 := by omega
      rw [runSOS_go tc fuel t ht]
      by_cases hbrk : (runSteps tc sosBody t).2.2
      · simp only [hbrk, if_true]
        right
        exact hb
      · simp only [hbrk, Bool.false_eq_true, if_false]
        right
        rcases ih (runSteps tc sosBody t).2.1 with heq | hle
        · rw [heq]
          exact hb
        · exact hle
    · rw [runSOS_stop tc fuel t ht]
      left
      rfl

/-- **C3, amended.**  For every in-progress transmission and every point
at which `stop()` is called: the cancellation flag is checked before every
*torch-on* segment (not before every gap segment), so neither loop begins
a light pulse at or after the stop — at most the current pulse and its
trailing gaps complete; `stop()` itself synchronously forces the output
device OFF and (when the stopped mode was the active one) the state to
`Idle` — well within one segment's duration — as do the loop epilogues;
and the SOS loop itself exits within 800 ms of the stop.  (The Morse loop
may keep sleeping through silent gap segments for longer than 600 ms after
the stop, but it emits no light while doing so.) -/
theorem cancellation_stops_pulses :
    (∀ tc fuel, pulseStartsOk tc (withStarts 0 (runSOS tc fuel 0).1) = true) ∧
    (∀ tc text, pulseStartsOk tc (withStarts 0 (runMorse tc text).1) = true) ∧
    (∀ tc fuel, (runSOS tc fuel 0).2 ≤ tc + 800) ∧
    (∀ s : FState,
      (stopSOSfn s).isFlashlightOn = false ∧ (stopMorsefn s).isFlashlightOn = false ∧
      (sosEpilogue s).isFlashlightOn = false ∧ (morseEpilogue s).isFlashlightOn = false ∧
      (s.isTransmitting = false → modeOf (stopSOSfn s) = TransmissionState.Idle) ∧
      (s.sosMode = false → modeOf (stopMorsefn s) = TransmissionState.Idle)) := by
  refine ⟨?_, ?_, ?_, ?_⟩
  · intro tc fuel
    exact runSOS_pulses tc fuel 0
  · intro tc text
    exact runWords_pulses tc (wordsOf (text.toList.map Char.toUpper)) 0
  · intro tc fuel
    rcases runSOS_exit_le tc fuel 0 with heq | hle
    · omega
    · exact hle
  · intro s
    refine ⟨rfl, rfl, rfl, rfl, ?_, ?_⟩
    · intro h
      simp [stopSOSfn, modeOf, h]
    · intro h
      simp [stopMorsefn, modeOf, h]

/-- Witness for `cancellation_stops_pulses` at concrete inputs (a stop
700 ms into the run; the idle state for the stop functions). -/
theorem cancellation_stops_pulses_witness :
    pulseStartsOk 700 (withStarts 0 (runSOS 700 1 0).1) = true ∧
    pulseStartsOk 700 (withStarts 0 (runMorse 700 "SOS").1) = true ∧
    (runSOS 700 1 0).2 ≤ 700 + 800 ∧
    modeOf (stopSOSfn initFState) = TransmissionState.Idle :=
  ⟨cancellation_stops_pulses.1 700 1,
    cancellation_stops_pulses.2.1 700 "SOS",
    cancellation_stops_pulses.2.2.1 700 1,
    (cancellation_stops_pulses.2.2.2 initFState).2.2.2.2.1 rfl⟩

/-! ## State-machine properties (claims C2, C7, C8) -/

/-- The structural invariant holds in every reachable component state. -/
theorem FInv_reachable : ∀ {s : FState}, Reachable s → FInv s := by
  intro s h
  induction h with
  | init => simp [FInv, initFState]
  | @startSOS s hr ih =>
    obtain ⟨h1, h2, h3, h4⟩ := ih
    cases hT : s.isTransmitting with
    | true => simp [FInv, startSOSsync, stopMorsefn, hT]
    | false =>
      rw [hT] at h1
      simp [FInv, startSOSsync, hT, h1, h4 hT]
  | @stopSOS s hr ih =>
    obtain ⟨h1, h2, h3, h4⟩ := ih
    exact ⟨h1, by simp [stopSOSfn], by simp [stopSOSfn], h4⟩
  | @startMorse s text hr ih =>
    obtain ⟨h1, h2, h3, h4⟩ := ih
    by_cases hE : trimmedEmpty text
    · simpa [startMorseSync, hE, FInv] using ⟨h1, h2, h3, h4⟩
    · cases hS : s.sosMode with
      | true => simp [startMorseSync, hE, hS, FInv, stopSOSfn]
      | false =>
        have hA : s.sosActive = false := by
          cases hA' : s.sosActive with
          | false => rfl
          | true => rw [h3 hA'] at hS; exact absurd hS (by simp)
        simp [startMorseSync, hE, hS, FInv, hA]
  | @stopMorse s hr ih =>
    obtain ⟨h1, h2, h3, h4⟩ := ih
    exact ⟨by simp [stopMorsefn], by simp [stopMorsefn], h3, by simp [stopMorsefn]⟩
  | @toggle s hr ih =>
    obtain ⟨h1, h2, h3, h4⟩ := ih
    by_cases hT : s.sosMode || s.isTransmitting
    · simpa [toggleFlashlightFn, hT, FInv] using ⟨h1, h2, h3, h4⟩
    · simpa [toggleFlashlightFn, hT, FInv] using ⟨h1, h2, h3, h4⟩
  | @sosDone s hr hA ih =>
    obtain ⟨h1, h2, h3, h4⟩ := ih
    exact ⟨h1, by simp [sosEpilogue], by simp [sosEpilogue, hA], h4⟩
  | @morseDone s hr ih =>
    obtain ⟨h1, h2, h3, h4⟩ := ih
    exact ⟨by simp [morseEpilogue], by simp [morseEpilogue], h3, by simp [morseEpilogue]⟩

/-- **C2.**  Starting one transmission mode while the other is active
first force-stops the other — output device OFF, transmitter `Idle` —
before the new plan starts: `startMorse` while `RunningSOS` applies
`stopSOS` and only then raises the Morse flags, `startSOS` while
`RunningMorse` applies `stopMorse` first; in every reachable state at most
one transmission is active (never `sosMode` and `isTransmitting`, nor
`sosActiveRef` and `morseActiveRef`, together); and after the new plan
completes (its epilogue runs) the state is `Idle`. -/
theorem start_stops_other_mode :
    (∀ s : FState, Reachable s →
      ¬(s.sosMode = true ∧ s.isTransmitting = true) ∧
      ¬(s.sosActive = true ∧ s.morseActive = true)) ∧
    (∀ (s : FState) (text : String), s.sosMode = true → trimmedEmpty text = false →
      startMorseSync s text =
        ({ stopSOSfn s with
            isTransmitting := true
            morseActive := true
            currentChar := none }, StartResult.started) ∧
      (stopSOSfn s).isFlashlightOn = false ∧
      (s.isTransmitting = false → modeOf (stopSOSfn s) = TransmissionState.Idle) ∧
      (startMorseSync s text).1.isFlashlightOn = false ∧
      modeOf (startMorseSync s text).1 = TransmissionState.RunningMorse ∧
      modeOf (morseEpilogue (startMorseSync s text).1) = TransmissionState.Idle) ∧
    (∀ s : FState, s.isTransmitting = true →
      startSOSsync s = { stopMorsefn s with sosMode := true, sosActive := true } ∧
      (stopMorsefn s).isFlashlightOn = false ∧
      (s.sosMode = false → modeOf (stopMorsefn s) = TransmissionState.Idle) ∧
      modeOf (startSOSsync s) = TransmissionState.RunningSOS ∧
      modeOf (sosEpilogue (stopSOSfn (startSOSsync s))) = TransmissionState.Idle) := by
  refine ⟨?_, ?_, ?_⟩
  · intro s hr
    obtain ⟨h1, h2, h3, h4⟩ := FInv_reachable hr
    constructor
    · rintro ⟨hS, hT⟩
      rw [h2 hS] at hT
      exact absurd hT (by simp)
    · rintro ⟨hA, hM⟩
      rw [h1] at hM
      rw [h2 (h3 hA)] at hM
      exact absurd hM (by simp)
  · intro s text hS hE
    refine ⟨?_, rfl, ?_, ?_, ?_, ?_⟩
    · simp [startMorseSync, hE, hS]
    · intro hT
      simp [stopSOSfn, modeOf, hT]
    · simp [startMorseSync, hE, hS, stopSOSfn]
    · simp [startMorseSync, hE, hS, stopSOSfn, modeOf]
    · simp [startMorseSync, hE, hS, stopSOSfn, morseEpilogue, modeOf]
  · intro s hT
    refine ⟨?_, rfl, ?_, ?_, ?_⟩
    · simp [startSOSsync, hT]
    · intro hS
      simp [stopMorsefn, modeOf, hS]
    · simp [startSOSsync, hT, stopMorsefn, modeOf]
    · simp [startSOSsync, hT, stopMorsefn, stopSOSfn, sosEpilogue, modeOf]

/-- Witness for `start_stops_other_mode`: start SOS from the initial
state, then start Morse transmission of `"A"` over it. -/
theorem start_stops_other_mode_witness :
    ¬((startSOSsync initFState).sosMode = true ∧
        (startSOSsync initFState).isTransmitting = true) ∧
    (startMorseSync (startSOSsync initFState) "A").1.isFlashlightOn = false ∧
    modeOf (startMorseSync (startSOSsync initFState) "A").1 =
      TransmissionState.RunningMorse :=
  ⟨(start_stops_other_mode.1 (startSOSsync initFState)
      (Reachable.startSOS Reachable.init)).1,
    (start_stops_other_mode.2.1 (startSOSsync initFState) "A" rfl (by decide)).2.2.2.1,
    (start_stops_other_mode.2.1 (startSOSsync initFState) "A" rfl (by decide)).2.2.2.2.1⟩

/-- **C7.**  Starting a Morse transmission with empty or whitespace-only
text is rejected by the `!text.trim()` guard before any state transition:
the handler reports invalid input and returns the state unchanged — in
particular the transmission state stays `Idle` and the output device is
untouched. -/
theorem empty_morse_text_rejected :
    ∀ (s : FState) (text : String), trimmedEmpty text = true →
      startMorseSync s text = (s, StartResult.invalidText) := by
  intro s text h
  simp [startMorseSync, h]

/-- Witness for `empty_morse_text_rejected` on whitespace-only input. -/
theorem empty_morse_text_rejected_witness :
    startMorseSync initFState "  " = (initFState, StartResult.invalidText) :=
  empty_morse_text_rejected initFState "  " (by decide)

/-- **C8, counterexample.**  In the reachable Idle state reached by
manually toggling the torch on, `stopSOS` is not a no-op: it forces the
output-device flag OFF. -/
theorem stop_when_idle_not_noop :
    Reachable (toggleFlashlightFn initFState) ∧
    modeOf (toggleFlashlightFn initFState) = TransmissionState.Idle ∧
    stopSOSfn (toggleFlashlightFn initFState) ≠ toggleFlashlightFn initFState :=
  ⟨Reachable.toggle Reachable.init, by decide, by decide⟩

/-- **C8, amended.**  Calling `stopSOS` or `stopMorse` in a reachable
`Idle` state never throws (both are total functions), leaves the
transmission state `Idle` and every transmission flag unchanged, and is a
complete no-op whenever the output device is already off; its only
possible observable effect is forcing the output-device flag OFF, visible
exactly when the torch had been manually switched on. -/
theorem stop_when_idle (s : FState) (hr : Reachable s)
    (hidle : modeOf s = TransmissionState.Idle) :
    stopSOSfn s = { s with isFlashlightOn := false } ∧
    stopMorsefn s = { s with isFlashlightOn := false } ∧
    (s.isFlashlightOn = false → stopSOSfn s = s ∧ stopMorsefn s = s) ∧
    modeOf (stopSOSfn s) = TransmissionState.Idle ∧
    modeOf (stopMorsefn s) = TransmissionState.Idle := by
  obtain ⟨h1, h2, h3, h4⟩ := FInv_reachable hr
  obtain ⟨fOn, fSos, fTr, fsA, fmA, fC⟩ := s
  cases fSos with
  | true => simp [modeOf] at hidle
  | false =>
    cases fTr with
    | true => simp [modeOf] at hidle
    | false =>
      cases fsA with
      | true => simp at h3
      | false =>
        cases fmA with
        | true => simp at h1
        | false =>
          have hC : fC = none := h4 rfl
          subst hC
          refine ⟨rfl, rfl, ?_, rfl, rfl⟩
          intro hOn
          subst hOn
          exact ⟨rfl, rfl⟩

/-- Witness for `stop_when_idle` at the initial (Idle, torch off) state. -/
theorem stop_when_idle_witness :
    stopSOSfn initFState = { initFState with isFlashlightOn := false } ∧
    stopMorsefn initFState = { initFState with isFlashlightOn := false } ∧
    (initFState.isFlashlightOn = false →
      stopSOSfn initFState = initFState ∧ stopMorsefn initFState = initFState) ∧
    modeOf (stopSOSfn initFState) = TransmissionState.Idle ∧
    modeOf (stopMorsefn initFState) = TransmissionState.Idle :=
  stop_when_idle initFState Reachable.init rfl

end MobileUtility
